import Mathlib

/-
  Verification of the go-loglater capture/replay engine.

  The development shallowly embeds the library's data model and operations:
  `storage.Record`, `storage.Operation`, `applyGroups`, `Record.Realize`
  (storage/record.go), the record store with its synchronous cleanup path and
  the built-in cleanup policies (storage/storage.go, cleanup.go), and the
  `LogCollector` handler adapter with `WithAttrs`, `WithGroup`, `Handle`,
  `PlayLogsCtx` and `PlayLogs` (loglater.go).

  Times and levels are modelled as integers (nanoseconds / slog levels),
  program counters as naturals, and slog attribute values as either scalar
  payloads or nested groups, which is the only structure the library itself
  inspects.  Downstream/target handlers are abstract: a derived handler is the
  syntax tree of WithAttrs/WithGroup applications over an opaque base, and the
  behaviour of its Handle method is an arbitrary function passed as a
  parameter.  Context cancellation is modelled as a boolean function of the
  per-record check index, and the store's synchronous mode threads the record
  list state explicitly.
-/

namespace LogLater

/-- Model of `slog.Attr`: a key paired with either a scalar payload (string or
integer, sufficient for everything the library manipulates) or a nested group
of attributes, as produced by `slog.Group`. -/
inductive Attr where
  | vstr (key : String) (s : String) : Attr
  | vint (key : String) (n : Int) : Attr
  | group (key : String) (items : List Attr) : Attr


/-- Model of `storage.Operation` (storage/record.go): a tagged operation with a
string `Type` field that is `"attrs"` for WithAttrs captures and `"group"` for
WithGroup captures; other tags are possible values of the Go string field and
are skipped by consumers. -/
structure Operation where
  type : String
  attrs : List Attr := []
  group : String := ""


/-- Model of `slog.Record` as the library consumes it: time, level, message,
call-site program counter, and the ordered attribute list. -/
structure SlogRecord where
  time : Int
  level : Int
  message : String
  pc : Nat
  attrs : List Attr


/-- Model of `storage.Record` (storage/record.go): the captured event data plus
the journal (`Sequence`) snapshot taken at capture time. -/
structure Record where
  time : Int
  level : Int
  message : String
  pc : Nat
  attrs : List Attr
  sequence : List Operation


/-- `applyGroups` (storage/record.go): nests an attribute under the group names
in `groups`, built from the inside out, so `groups[0]` ends up outermost.  The
Go early return on an empty list coincides with the empty fold. -/
def applyGroups (attr : Attr) (groups : List String) : Attr :=
  groups.foldr (fun g acc => Attr.group g [acc]) attr

/-- One step of the loop in `Record.Realize` (storage/record.go): the state is
the current group stack paired with the accumulated collector attributes. -/
def realizeStep (st : List String × List Attr) (op : Operation) :
    List String × List Attr :=
  if op.type = "attrs" then
    if 0 < st.1.length then
      (st.1, st.2 ++ op.attrs.map (fun a => applyGroups a st.1))
    else
      (st.1, st.2 ++ op.attrs)
  else if op.type = "group" then
    (st.1 ++ [op.group], st.2)
  else
    st

/-- `Record.Realize` (storage/record.go): replays the journal to build the full
attribute list — journal-bound attributes first, then the record's own
attributes nested under the final group stack — preserving all other fields. -/
def Record.Realize (r : Record) : Record :=
  let st := r.sequence.foldl realizeStep ([], [])
  let own := if 0 < st.1.length then r.attrs.map (fun a => applyGroups a st.1)
             else r.attrs
  { time := r.time, level := r.level, message := r.message, pc := r.pc,
    attrs := st.2 ++ own, sequence := r.sequence }

/-- Claim-side restatement (from the spec's words, for comparison with
`Record.Realize`): nest one attribute under a list of group names, outermost
group first. -/
def nestUnder (gs : List String) (a : Attr) : Attr :=
  gs.foldr (fun g acc => Attr.group g [acc]) a

/-- Claim-side restatement (from the spec's words): the journal-bound
attributes in binding order, each nested under exactly the group names pushed
before its binding; `gs` is the stack of groups already pushed. -/
def journalAttrs : List Operation → List String → List Attr
  | [], _ => []
  | op :: rest, gs =>
    if op.type = "attrs" then op.attrs.map (nestUnder gs) ++ journalAttrs rest gs
    else if op.type = "group" then journalAttrs rest (gs ++ [op.group])
    else journalAttrs rest gs

/-- Claim-side restatement (from the spec's words): the group names active once
the journal is exhausted. -/
def finalGroups : List Operation → List String → List String
  | [], gs => gs
  | op :: rest, gs =>
    if op.type = "group" then finalGroups rest (gs ++ [op.group])
    else finalGroups rest gs

/-- The concrete record of the spec scenario: journal
AttrBinding({global:"v"}), GroupScope("g"), AttrBinding({x:1}) with own
attribute {y:2}. -/
def scenarioRecord : Record :=
  { time := 0, level := 0, message := "m", pc := 0,
    attrs := [Attr.vint "y" 2],
    sequence := [ { type := "attrs", attrs := [Attr.vstr "global" "v"] },
                  { type := "group", group := "g" },
                  { type := "attrs", attrs := [Attr.vint "x" 1] } ] }

/-- A derived slog handler over an opaque base: the syntax tree of WithAttrs
and WithGroup applications performed on a target or downstream handler.  The
library treats handlers abstractly through exactly these two derivations plus
Handle, so this free representation is faithful. -/
inductive DH where
  | base : DH
  | withAttrs : DH → List Attr → DH
  | withGroup : DH → String → DH

/-- Model of `LogCollector` (loglater.go): the shared store reference (an
abstract identifier drawn from σ, equal identifiers meaning the same store
object), the optional downstream handler, and the operation journal
(`sequence`). -/
structure LogCollector (σ : Type) where
  store : σ
  handler : Option DH
  sequence : List Operation

/-- `LogCollector.WithAttrs` (loglater.go): with no attrs it returns the
receiver; otherwise a new collector sharing the same store, with the
downstream handler re-derived when present, and the journal equal to a clone
of the parent's journal with one attrs operation appended. -/
def LogCollector.WithAttrs {σ : Type} (c : LogCollector σ)
    (attrs : List Attr) : LogCollector σ :=
  if attrs.length = 0 then c
  else
    { store := c.store,
      handler := c.handler.map (fun h => DH.withAttrs h attrs),
      sequence := c.sequence ++ [{ type := "attrs", attrs := attrs }] }

/-- `LogCollector.WithGroup` (loglater.go): with an empty name it returns the
receiver; otherwise a new collector sharing the same store, with the
downstream handler re-derived when present, and the journal equal to a clone
of the parent's journal with one group operation appended. -/
def LogCollector.WithGroup {σ : Type} (c : LogCollector σ)
    (name : String) : LogCollector σ :=
  if name = "" then c
  else
    { store := c.store,
      handler := c.handler.map (fun h => DH.withGroup h name),
      sequence := c.sequence ++ [{ type := "group", group := name }] }

/-- `storage.NewRecord` (storage/record.go): a nil slog record gives nil;
otherwise the new record copies time, level, message and PC, materializes the
attribute list in order, and stores the journal snapshot. -/
def NewRecord (sequence : List Operation) :
    Option SlogRecord → Option Record
  | none => none
  | some r => some { time := r.time, level := r.level, message := r.message,
                     pc := r.pc, attrs := r.attrs, sequence := sequence }

/-- The outcome of `LogCollector.Handle`: success, the record-creation error,
or the downstream handler's error returned to the caller. -/
inductive HandleResult (E : Type) where
  | ok : HandleResult E
  | createFailed : HandleResult E
  | downstreamErr : E → HandleResult E

/-- `LogCollector.Handle` (loglater.go): clones the journal, builds a record
via `NewRecord` (failing with the creation error if it is nil), appends the
record to the shared store, and only then forwards the original event to the
downstream handler when one is configured, returning its error.  The store's
record list is threaded explicitly and `hfn` gives the downstream handler's
Handle behaviour. -/
def LogCollector.Handle {σ E : Type} (hfn : DH → SlogRecord → Option E)
    (c : LogCollector σ) (records : List Record) (r : SlogRecord) :
    List Record × HandleResult E :=
  match NewRecord c.sequence (some r) with
  | none => (records, HandleResult.createFailed)
  | some rec =>
    match c.handler with
    | some h =>
      match hfn h r with
      | some e => (records ++ [rec], HandleResult.downstreamErr e)
      | none => (records ++ [rec], HandleResult.ok)
    | none => (records ++ [rec], HandleResult.ok)

/-- The outcome of `PlayLogsCtx`: success, the nil-handler error, the context
cancellation error, or an error from the target handler's Handle returned
verbatim. -/
inductive PlayResult (E : Type) where
  | ok : PlayResult E
  | nilHandler : PlayResult E
  | canceled : PlayResult E
  | handleError : E → PlayResult E

/-- The journal fold inside `PlayLogsCtx` (loglater.go): rebuilds the
transient derived handler by applying WithAttrs for each attrs operation and
WithGroup for each group operation, in journal order; other tags fall through
the switch and leave the handler unchanged. -/
def rebuildHandler (h : DH) (seq : List Operation) : DH :=
  seq.foldl (fun cur op =>
    if op.type = "attrs" then DH.withAttrs cur op.attrs
    else if op.type = "group" then DH.withGroup cur op.group
    else cur) h

/-- The ephemeral event `PlayLogsCtx` builds with `slog.NewRecord` from the
stored timestamp, level, message and PC, adding the stored own attributes in
order. -/
def eventOf (r : Record) : SlogRecord :=
  { time := r.time, level := r.level, message := r.message, pc := r.pc,
    attrs := r.attrs }

/-- The per-record loop of `PlayLogsCtx` (loglater.go): `canceled i` is
whether the context's Done channel is already closed at the select preceding
the i-th record.  The result pairs the trace of (handler, event) Handle
submissions, in order, with the outcome. -/
def playLoop {E : Type} (canceled : Nat → Bool)
    (hfn : DH → SlogRecord → Option E) :
    List Record → Nat → List (DH × SlogRecord) × PlayResult E
  | [], _ => ([], PlayResult.ok)
  | r :: rest, i =>
    if canceled i then ([], PlayResult.canceled)
    else
      match hfn (rebuildHandler DH.base r.sequence) (eventOf r) with
      | some e => ([(rebuildHandler DH.base r.sequence, eventOf r)],
                   PlayResult.handleError e)
      | none =>
        let out := playLoop canceled hfn rest (i + 1)
        ((rebuildHandler DH.base r.sequence, eventOf r) :: out.1, out.2)

/-- `RecordStorage.GetAll` (storage/storage.go): returns a defensive copy of
the record list; in the persistent-list model the copy is the list itself. -/
def RecordStorage.GetAll (records : List Record) : List Record :=
  records

/-- `LogCollector.PlayLogsCtx` (loglater.go): fails with the handler-nil error
when the target handler is nil, and otherwise runs the per-record loop over
`GetAll` of the store, starting at check index 0. -/
def PlayLogsCtx {E : Type} (canceled : Nat → Bool)
    (hfn : DH → SlogRecord → Option E) (handlerNil : Bool)
    (records : List Record) : List (DH × SlogRecord) × PlayResult E :=
  if handlerNil then ([], PlayResult.nilHandler)
  else playLoop canceled hfn (RecordStorage.GetAll records) 0

/-- `LogCollector.PlayLogs` (loglater.go): `PlayLogsCtx` with a background
context, whose Done channel is never closed. -/
def PlayLogs {E : Type} (hfn : DH → SlogRecord → Option E)
    (handlerNil : Bool) (records : List Record) :
    List (DH × SlogRecord) × PlayResult E :=
  PlayLogsCtx (fun _ => false) hfn handlerNil records

/-- `RecordStorage.performCleanup` (storage/storage.go): runs the cleanup
function when one is configured and the store is non-empty. -/
def RecordStorage.performCleanup
    (cleanupFunc : Option (List Record → List Record))
    (records : List Record) : List Record :=
  match cleanupFunc with
  | some f => if 0 < records.length then f records else records
  | none => records

/-- `RecordStorage.Append` (storage/storage.go) in synchronous mode: appends
the record, then — when a cleanup function is configured — `triggerCleanup`
immediately runs `performCleanup` inline. -/
def RecordStorage.Append (cleanupFunc : Option (List Record → List Record))
    (records : List Record) (r : Record) : List Record :=
  let rs := records ++ [r]
  match cleanupFunc with
  | some _ => RecordStorage.performCleanup cleanupFunc rs
  | none => rs

/-- A sequence of `Append` calls on the store, in order. -/
def appendAll (cleanupFunc : Option (List Record → List Record))
    (init : List Record) (rs : List Record) : List Record :=
  rs.foldl (RecordStorage.Append cleanupFunc) init

/-- `maxSizeCleanup` (storage/cleanup.go): when the record count exceeds
`maxSize`, keeps only the most recent `maxSize` records (the Go slice
expression records[len-maxSize:]). -/
def maxSizeCleanup (maxSize : Int) : List Record → List Record :=
  fun records =>
    if (records.length : Int) ≤ maxSize then records
    else records.drop ((records.length : Int) - maxSize).toNat

/-- `maxAgeCleanup` (storage/cleanup.go): with `now` the clock reading taken
inside the function, scans for the first record whose timestamp is strictly
after now − maxAge and keeps the suffix from there; an empty store and the
all-old / none-old boundary cases are returned early exactly as in the Go
code. -/
def maxAgeCleanup (maxAge : Int) (now : Int) : List Record → List Record :=
  fun records =>
    if records.length = 0 then records
    else
      let cutoff := now - maxAge
      let i := records.findIdx (fun r => decide (cutoff < r.time))
      if records.length ≤ i then records.take 0
      else if i = 0 then records
      else records.drop i

/-- The last `k` elements of a list (proof-side helper). -/
def lastN (k : Nat) (xs : List α) : List α :=
  (xs.reverse.take k).reverse

/-- A record carrying only a message, as in the max-count spec scenario. -/
def msgRec (m : String) : Record :=
  { time := 0, level := 0, message := m, pc := 0, attrs := [], sequence := [] }

/-- A record carrying only a timestamp, for the max-age scenario. -/
def timeRec (t : Int) : Record :=
  { time := t, level := 0, message := "", pc := 0, attrs := [], sequence := [] }

end LogLater

namespace LogLater

theorem map_nestUnder_nil (l : List Attr) : l.map (nestUnder []) = l := by
  induction l with
  | nil => rfl
  | cons a t ih => simp [nestUnder, ih]

theorem realize_fold (seq : List Operation) :
    ∀ (gs : List String) (acc : List Attr),
      seq.foldl realizeStep (gs, acc) =
        (finalGroups seq gs, acc ++ journalAttrs seq gs) := by
  induction seq with
  | nil => intro gs acc; simp [finalGroups, journalAttrs]
  | cons op rest ih =>
    intro gs acc
    by_cases hattrs : op.type = "attrs"
    · have hng : op.type ≠ "group" := by simp [hattrs]
      by_cases hgs : 0 < gs.length
      · simp only [List.foldl_cons, realizeStep, hattrs, if_pos rfl, if_pos hgs,
          journalAttrs, finalGroups, hng, ite_true, ite_false, if_neg hng]
        rw [ih]
        simp [List.append_assoc, applyGroups, nestUnder]
      · have hgs0 : gs = [] := by
          cases gs with
          | nil => rfl
          | cons a t => simp at hgs
        subst hgs0
        simp only [List.foldl_cons, realizeStep, hattrs, if_pos rfl,
          List.length_nil, lt_irrefl, if_neg (by simp : ¬ (0:Nat) < 0),
          journalAttrs, finalGroups, if_neg hng]
        rw [ih]
        simp [List.append_assoc, map_nestUnder_nil]
    · by_cases hgroup : op.type = "group"
      · simp only [List.foldl_cons, realizeStep, if_neg hattrs, hgroup,
          if_pos rfl, journalAttrs, finalGroups]
        rw [ih]
        simp [hattrs]
      · simp only [List.foldl_cons, realizeStep, if_neg hattrs, if_neg hgroup,
          journalAttrs, finalGroups]
        rw [ih]

/-- C1: For every Record, `Realize` produces the journal-bound attributes in
binding order — each nested under exactly the groups pushed before its binding,
outermost first — followed by the record's own attributes nested under the
groups active when the journal is exhausted; in particular the spec scenario
journal AttrBinding({global:"v"}), GroupScope("g"), AttrBinding({x:1}) with own
attribute {y:2} realizes to top-level global=v, nested g.x=1, nested g.y=2. -/
theorem realize_journal_nesting (r : Record) :
    (r.Realize).attrs =
      journalAttrs r.sequence [] ++
        r.attrs.map (nestUnder (finalGroups r.sequence [])) ∧
    scenarioRecord.Realize.attrs =
      [Attr.vstr "global" "v",
       Attr.group "g" [Attr.vint "x" 1],
       Attr.group "g" [Attr.vint "y" 2]] := by
  constructor
  · show (r.Realize).attrs = _
    unfold Record.Realize
    rw [realize_fold]
    by_cases hgs : 0 < (finalGroups r.sequence []).length
    · simp only [hgs, if_pos hgs]
      simp [applyGroups, nestUnder]
    · have h0 : finalGroups r.sequence [] = [] := by
        cases hfg : finalGroups r.sequence [] with
        | nil => rfl
        | cons a t => rw [hfg] at hgs; simp at hgs
      simp [h0, map_nestUnder_nil]
  · rfl

/-- C7: `Realize` is pure and deterministic — two invocations on the same
Record give equal results — and it returns a new value whose time, level,
message, PC and journal equal the source record's (the source itself is a value
and is not mutated). -/
theorem realize_pure_deterministic (r : Record) :
    r.Realize = r.Realize ∧
    (r.Realize).time = r.time ∧
    (r.Realize).level = r.level ∧
    (r.Realize).message = r.message ∧
    (r.Realize).pc = r.pc ∧
    (r.Realize).sequence = r.sequence :=
  ⟨rfl, rfl, rfl, rfl, rfl, rfl⟩

/-- C3: deriving with empty attrs or an empty group name returns the same
adapter; deriving with non-empty input returns a new adapter that shares the
parent's store, whose journal is the parent's journal with exactly one
operation appended (and in particular differs from the parent's journal, which
itself is left unchanged — each derivation clones before appending). -/
theorem withAttrs_withGroup_derivation {σ : Type} (c : LogCollector σ)
    (attrs : List Attr) (name : String)
    (hattrs : attrs ≠ []) (hname : name ≠ "") :
    c.WithAttrs [] = c ∧
    c.WithGroup "" = c ∧
    (c.WithAttrs attrs).store = c.store ∧
    (c.WithAttrs attrs).sequence =
      c.sequence ++ [{ type := "attrs", attrs := attrs }] ∧
    (c.WithAttrs attrs).sequence ≠ c.sequence ∧
    (c.WithGroup name).store = c.store ∧
    (c.WithGroup name).sequence =
      c.sequence ++ [{ type := "group", group := name }] ∧
    (c.WithGroup name).sequence ≠ c.sequence := by
  have h1 : ¬ attrs.length = 0 := by simpa using hattrs
  refine ⟨?_, ?_, ?_, ?_, ?_, ?_, ?_, ?_⟩
  · simp [LogCollector.WithAttrs]
  · simp [LogCollector.WithGroup]
  · simp [LogCollector.WithAttrs, h1]
  · simp [LogCollector.WithAttrs, h1]
  · simp only [LogCollector.WithAttrs, if_neg h1]
    intro heq
    have := congrArg List.length heq
    simp at this
  · simp [LogCollector.WithGroup, hname]
  · simp [LogCollector.WithGroup, hname]
  · simp only [LogCollector.WithGroup, if_neg hname]
    intro heq
    have := congrArg List.length heq
    simp at this

theorem withAttrs_withGroup_derivation_witness :
    ((⟨(), none, []⟩ : LogCollector Unit).WithAttrs
        [Attr.vstr "a" "b"]).sequence =
      [{ type := "attrs", attrs := [Attr.vstr "a" "b"] }] ∧
    ((⟨(), none, []⟩ : LogCollector Unit).WithGroup "g").sequence =
      [{ type := "group", group := "g" }] := by
  have h := withAttrs_withGroup_derivation (σ := Unit) ⟨(), none, []⟩
    [Attr.vstr "a" "b"] "g" (by simp) (by simp)
  exact ⟨h.2.2.2.1.trans (by simp), h.2.2.2.2.2.2.1.trans (by simp)⟩

/-- C9: replay with a nil target handler — through `PlayLogsCtx` or
`PlayLogs` — fails immediately with the handler-nil error and submits no
record to any handler. -/
theorem play_nil_handler_fails {E : Type} (canceled : Nat → Bool)
    (hfn : DH → SlogRecord → Option E) (records : List Record) :
    PlayLogsCtx canceled hfn true records = ([], PlayResult.nilHandler) ∧
    PlayLogs hfn true records = ([], PlayResult.nilHandler) :=
  ⟨rfl, rfl⟩

/-- C10: `Handle` appends the captured record to the store before forwarding,
so the resulting store always contains the new record — built from the event's
fields and the journal snapshot — and when the downstream handler errors that
error is returned to the caller while the record stays appended. -/
theorem handle_capture_before_forward {σ E : Type}
    (hfn : DH → SlogRecord → Option E) (c : LogCollector σ)
    (records : List Record) (r : SlogRecord) :
    (LogCollector.Handle hfn c records r).1 =
      records ++ [{ time := r.time, level := r.level, message := r.message,
                    pc := r.pc, attrs := r.attrs, sequence := c.sequence }] ∧
    (∀ h e, c.handler = some h → hfn h r = some e →
      (LogCollector.Handle hfn c records r).2 =
        HandleResult.downstreamErr e) := by
  refine ⟨?_, ?_⟩
  · cases hh : c.handler with
    | none => simp [LogCollector.Handle, NewRecord, hh]
    | some h =>
      cases hfr : hfn h r with
      | none => simp [LogCollector.Handle, NewRecord, hh, hfr]
      | some e => simp [LogCollector.Handle, NewRecord, hh, hfr]
  · intro h e hh hfr
    simp [LogCollector.Handle, NewRecord, hh, hfr]

theorem handle_capture_before_forward_witness :
    (LogCollector.Handle (fun _ _ => some 7)
        (⟨(), some DH.base, []⟩ : LogCollector Unit) []
        ⟨0, 0, "w", 0, []⟩).1 =
      [{ time := 0, level := 0, message := "w", pc := 0, attrs := [],
         sequence := [] }] ∧
    (LogCollector.Handle (fun _ _ => some 7)
        (⟨(), some DH.base, []⟩ : LogCollector Unit) []
        ⟨0, 0, "w", 0, []⟩).2 = HandleResult.downstreamErr 7 := by
  have h := handle_capture_before_forward (σ := Unit) (E := Nat)
    (fun _ _ => some 7) ⟨(), some DH.base, []⟩ [] ⟨0, 0, "w", 0, []⟩
  exact ⟨h.1.trans (by simp), h.2 DH.base 7 rfl rfl⟩

theorem appendAll_none (rs : List Record) :
    ∀ init : List Record, appendAll none init rs = init ++ rs := by
  induction rs with
  | nil => intro init; simp [appendAll]
  | cons r rest ih =>
    intro init
    show appendAll none (RecordStorage.Append none init r) rest = _
    rw [show RecordStorage.Append none init r = init ++ [r] from rfl, ih]
    simp

/-- C8: with no cleanup policy configured, appends are never lost — after any
sequence of N appends starting from the empty store, `GetAll` returns exactly
those N records in append order. -/
theorem no_cleanup_append_conservation (init rs : List Record) :
    appendAll none init rs = init ++ rs ∧
    RecordStorage.GetAll (appendAll none [] rs) = rs ∧
    (RecordStorage.GetAll (appendAll none [] rs)).length = rs.length := by
  refine ⟨appendAll_none rs init, ?_, ?_⟩
  · show appendAll none [] rs = rs
    rw [appendAll_none rs []]
    simp
  · show (appendAll none [] rs).length = rs.length
    rw [appendAll_none rs []]
    simp

theorem playLoop_ok {E : Type} (hfn : DH → SlogRecord → Option E)
    (rs : List Record) :
    ∀ i : Nat,
      (∀ r ∈ rs, hfn (rebuildHandler DH.base r.sequence) (eventOf r) = none) →
      playLoop (fun _ => false) hfn rs i =
        (rs.map (fun r => (rebuildHandler DH.base r.sequence, eventOf r)),
         PlayResult.ok) := by
  induction rs with
  | nil => intro i _; rfl
  | cons r rest ih =>
    intro i hnone
    have hr := hnone r (List.mem_cons_self r rest)
    simp only [playLoop, hr, Bool.false_eq_true, if_false]
    rw [ih (i + 1) (fun x hx => hnone x (List.mem_cons_of_mem r hx))]
    simp

theorem playLoop_err {E : Type} (hfn : DH → SlogRecord → Option E)
    (rs : List Record) :
    ∀ (i k : Nat) (hk : k < rs.length) (e : E),
      hfn (rebuildHandler DH.base (rs.get ⟨k, hk⟩).sequence)
          (eventOf (rs.get ⟨k, hk⟩)) = some e →
      (∀ j (hj : j < k),
        hfn (rebuildHandler DH.base (rs.get ⟨j, Nat.lt_trans hj hk⟩).sequence)
            (eventOf (rs.get ⟨j, Nat.lt_trans hj hk⟩)) = none) →
      playLoop (fun _ => false) hfn rs i =
        ((rs.take (k + 1)).map
            (fun r => (rebuildHandler DH.base r.sequence, eventOf r)),
         PlayResult.handleError e) := by
  induction rs with
  | nil => intro i k hk; simp at hk
  | cons r rest ih =>
    intro i k hk e hke hprev
    cases k with
    | zero =>
      have hr : hfn (rebuildHandler DH.base r.sequence) (eventOf r) = some e :=
        hke
      simp only [playLoop, hr, Bool.false_eq_true, if_false]
      simp
    | succ k =>
      have hr : hfn (rebuildHandler DH.base r.sequence) (eventOf r) = none :=
        hprev 0 (Nat.succ_pos k)
      simp only [playLoop, hr, Bool.false_eq_true, if_false]
      have hk2 : k < rest.length := Nat.lt_of_succ_lt_succ hk
      rw [ih (i + 1) k hk2 e hke
        (fun j hj => hprev (j + 1) (Nat.succ_lt_succ hj))]
      simp

theorem playLoop_cancel {E : Type} (canceled : Nat → Bool)
    (hfn : DH → SlogRecord → Option E) (rs : List Record) :
    ∀ (i k : Nat) (hk : k < rs.length),
      canceled (i + k) = true →
      (∀ j, j < k → canceled (i + j) = false) →
      (∀ j (hj : j < k),
        hfn (rebuildHandler DH.base (rs.get ⟨j, Nat.lt_trans hj hk⟩).sequence)
            (eventOf (rs.get ⟨j, Nat.lt_trans hj hk⟩)) = none) →
      playLoop canceled hfn rs i =
        ((rs.take k).map
            (fun r => (rebuildHandler DH.base r.sequence, eventOf r)),
         PlayResult.canceled) := by
  induction rs with
  | nil => intro i k hk; simp at hk
  | cons r rest ih =>
    intro i k hk hcancel hbefore hhandled
    cases k with
    | zero =>
      have hc : canceled i = true := by simpa using hcancel
      simp only [playLoop, hc, if_true]
      simp
    | succ k =>
      have hc : canceled i = false := by
        have := hbefore 0 (Nat.succ_pos k)
        simpa using this
      have hr : hfn (rebuildHandler DH.base r.sequence) (eventOf r) = none :=
        hhandled 0 (Nat.succ_pos k)
      simp only [playLoop, hc, Bool.false_eq_true, if_false, hr]
      have hk2 : k < rest.length := Nat.lt_of_succ_lt_succ hk
      have hcancel2 : canceled (i + 1 + k) = true := by
        have : i + 1 + k = i + (k + 1) := by omega
        rw [this]; exact hcancel
      rw [ih (i + 1) k hk2 hcancel2
        (fun j hj => by
          have : i + 1 + j = i + (j + 1) := by omega
          rw [this]; exact hbefore (j + 1) (Nat.succ_lt_succ hj))
        (fun j hj => hhandled (j + 1) (Nat.succ_lt_succ hj))]
      simp

/-- C2: with a live (never-canceled) context and a non-nil target handler,
`PlayLogsCtx` processes records in store order, submitting for each record the
event built from its stored fields to the handler rebuilt by folding its
journal over the target handler; when every Handle call succeeds all records
are submitted in order and the result is ok, and when record k is the first
whose Handle errors, exactly records 0..k are submitted and that error is
returned verbatim. -/
theorem playLogsCtx_replay_order_and_failfast {E : Type}
    (hfn : DH → SlogRecord → Option E) (records : List Record) :
    ((∀ r ∈ records,
        hfn (rebuildHandler DH.base r.sequence) (eventOf r) = none) →
      PlayLogsCtx (fun _ => false) hfn false records =
        (records.map
            (fun r => (rebuildHandler DH.base r.sequence, eventOf r)),
         PlayResult.ok)) ∧
    (∀ (k : Nat) (hk : k < records.length) (e : E),
      hfn (rebuildHandler DH.base (records.get ⟨k, hk⟩).sequence)
          (eventOf (records.get ⟨k, hk⟩)) = some e →
      (∀ j (hj : j < k),
        hfn (rebuildHandler DH.base
              (records.get ⟨j, Nat.lt_trans hj hk⟩).sequence)
            (eventOf (records.get ⟨j, Nat.lt_trans hj hk⟩)) = none) →
      PlayLogsCtx (fun _ => false) hfn false records =
        ((records.take (k + 1)).map
            (fun r => (rebuildHandler DH.base r.sequence, eventOf r)),
         PlayResult.handleError e)) := by
  constructor
  · intro hall
    exact playLoop_ok hfn records 0 hall
  · intro k hk e hke hprev
    exact playLoop_err hfn records 0 k hk e hke hprev

theorem playLogsCtx_replay_witness :
    PlayLogsCtx (fun _ => false) (fun _ _ => (none : Option Nat)) false
        [scenarioRecord] =
      ([(rebuildHandler DH.base scenarioRecord.sequence,
         eventOf scenarioRecord)], PlayResult.ok) ∧
    PlayLogsCtx (fun _ => false) (fun _ _ => (some 7 : Option Nat)) false
        [scenarioRecord] =
      ([(rebuildHandler DH.base scenarioRecord.sequence,
         eventOf scenarioRecord)], PlayResult.handleError 7) := by
  constructor
  · exact ((playLogsCtx_replay_order_and_failfast
      (fun _ _ => (none : Option Nat)) [scenarioRecord]).1
        (fun r _ => rfl)).trans (by simp)
  · exact ((playLogsCtx_replay_order_and_failfast
      (fun _ _ => (some 7 : Option Nat)) [scenarioRecord]).2 0 (by simp) 7
        rfl (fun j hj => absurd hj (Nat.not_lt_zero j))).trans (by simp)

/-- C6: the cancellation signal is consulted once per record, at the check
preceding it (modelled by the check index); when record k's check is the first
to find the signal triggered — the earlier checks found it clear and the
earlier Handle calls succeeded — `PlayLogsCtx` returns the cancellation error
and the submitted records are exactly records 0..k-1, in store order (a
possibly empty prefix, never rolled back). -/
theorem playLogsCtx_cancellation_ordered_stop {E : Type}
    (canceled : Nat → Bool) (hfn : DH → SlogRecord → Option E)
    (records : List Record) (k : Nat) (hk : k < records.length)
    (hcancel : canceled k = true)
    (hbefore : ∀ j, j < k → canceled j = false)
    (hhandled : ∀ j (hj : j < k),
      hfn (rebuildHandler DH.base
            (records.get ⟨j, Nat.lt_trans hj hk⟩).sequence)
          (eventOf (records.get ⟨j, Nat.lt_trans hj hk⟩)) = none) :
    PlayLogsCtx canceled hfn false records =
      ((records.take k).map
          (fun r => (rebuildHandler DH.base r.sequence, eventOf r)),
       PlayResult.canceled) := by
  have h := playLoop_cancel canceled hfn records 0 k hk
  simp only [Nat.zero_add] at h
  exact h hcancel hbefore hhandled

theorem playLogsCtx_cancellation_witness :
    PlayLogsCtx (fun _ => true) (fun _ _ => (none : Option Nat)) false
        [msgRec "a"] = ([], PlayResult.canceled) := by
  exact (playLogsCtx_cancellation_ordered_stop (fun _ => true)
    (fun _ _ => (none : Option Nat)) [msgRec "a"] 0 (by simp) rfl
    (fun j hj => absurd hj (Nat.not_lt_zero j))
    (fun j hj => absurd hj (Nat.not_lt_zero j))).trans (by simp)

theorem lastN_eq_drop {α : Type} (k : Nat) (xs : List α) :
    lastN k xs = xs.drop (xs.length - k) := by
  unfold lastN
  rw [List.take_reverse, List.reverse_reverse]

theorem lastN_length_le {α : Type} (k : Nat) (xs : List α) :
    (lastN k xs).length ≤ k := by
  simp only [lastN, List.length_reverse, List.length_take]
  exact min_le_left _ _

theorem lastN_append_lastN {α : Type} (k : Nat) (a b : List α) :
    lastN k (lastN k a ++ b) = lastN k (a ++ b) := by
  unfold lastN
  rw [List.reverse_append, List.reverse_append, List.reverse_reverse]
  congr 1
  rw [List.take_append_eq_append_take, List.take_append_eq_append_take,
    List.take_take]
  congr 1
  rw [min_eq_left (Nat.sub_le k _)]

theorem maxSizeCleanup_eq_lastN (k : Nat) (records : List Record) :
    maxSizeCleanup (k : Int) records = lastN k records := by
  unfold maxSizeCleanup
  rw [lastN_eq_drop]
  by_cases h : (records.length : Int) ≤ (k : Int)
  · rw [if_pos h]
    have h2 : records.length - k = 0 := by omega
    rw [h2, List.drop_zero]
  · rw [if_neg h]
    congr 1
    omega

theorem appendAll_maxSize (k : Nat) (rs : List Record) :
    ∀ acc : List Record, acc.length ≤ k →
      appendAll (some (maxSizeCleanup (k : Int))) acc rs =
        lastN k (acc ++ rs) := by
  induction rs with
  | nil =>
    intro acc hacc
    show acc = lastN k (acc ++ [])
    rw [List.append_nil, lastN_eq_drop]
    have h2 : acc.length - k = 0 := by omega
    rw [h2, List.drop_zero]
  | cons r rest ih =>
    intro acc hacc
    have hstep : RecordStorage.Append (some (maxSizeCleanup (k : Int))) acc r
        = lastN k (acc ++ [r]) := by
      simp only [RecordStorage.Append, RecordStorage.performCleanup]
      rw [if_pos (by simp)]
      exact maxSizeCleanup_eq_lastN k (acc ++ [r])
    calc appendAll (some (maxSizeCleanup (k : Int))) acc (r :: rest)
        = appendAll (some (maxSizeCleanup (k : Int)))
            (RecordStorage.Append (some (maxSizeCleanup (k : Int))) acc r)
            rest := rfl
      _ = appendAll (some (maxSizeCleanup (k : Int)))
            (lastN k (acc ++ [r])) rest := by rw [hstep]
      _ = lastN k (lastN k (acc ++ [r]) ++ rest) :=
            ih _ (lastN_length_le k _)
      _ = lastN k ((acc ++ [r]) ++ rest) := lastN_append_lastN k _ _
      _ = lastN k (acc ++ (r :: rest)) := by
            rw [List.append_assoc, List.singleton_append]

/-- C4: with the max-count(K) policy and synchronous cleanup, after any
sequence of appends starting from the empty store, `GetAll` returns exactly
the K most recently appended records in their original relative order (all of
them when fewer than K exist), hence at most K records; in particular K = 2
with appends "1","2","3","4" leaves exactly ["3","4"]. -/
theorem maxSize_sync_retains_last_K (K : Nat) (rs : List Record) :
    RecordStorage.GetAll (appendAll (some (maxSizeCleanup (K : Int))) [] rs)
        = rs.drop (rs.length - K) ∧
    (RecordStorage.GetAll
        (appendAll (some (maxSizeCleanup (K : Int))) [] rs)).length ≤ K ∧
    RecordStorage.GetAll (appendAll (some (maxSizeCleanup (2 : Int))) []
        [msgRec "1", msgRec "2", msgRec "3", msgRec "4"])
      = [msgRec "3", msgRec "4"] := by
  have h := appendAll_maxSize K rs [] (by simp)
  rw [List.nil_append] at h
  refine ⟨?_, ?_, ?_⟩
  · show appendAll (some (maxSizeCleanup (K : Int))) [] rs = _
    rw [h, lastN_eq_drop]
  · show (appendAll (some (maxSizeCleanup (K : Int))) [] rs).length ≤ K
    rw [h]
    exact lastN_length_le K rs
  · rfl

theorem sorted_drop_findIdx_time (cutoff : Int) :
    ∀ l : List Record, List.Pairwise (fun a b => a.time ≤ b.time) l →
      ∀ r ∈ l.drop (l.findIdx (fun x => decide (cutoff < x.time))),
        cutoff < r.time := by
  intro l
  induction l with
  | nil => intro _ r hr; simp at hr
  | cons x t ih =>
    intro hsorted r hr
    rw [List.findIdx_cons] at hr
    by_cases hx : cutoff < x.time
    · rw [decide_eq_true hx] at hr
      simp only [cond_true, List.drop_zero] at hr
      rcases List.mem_cons.mp hr with h | h
      · subst h; exact hx
      · have := (List.pairwise_cons.mp hsorted).1 r h
        omega
    · rw [decide_eq_false hx] at hr
      simp only [cond_false, List.drop_succ_cons] at hr
      exact ih (List.pairwise_cons.mp hsorted).2 r hr

theorem take_findIdx_time (cutoff : Int) :
    ∀ l : List Record,
      ∀ r ∈ l.take (l.findIdx (fun x => decide (cutoff < x.time))),
        ¬ cutoff < r.time := by
  intro l
  induction l with
  | nil => intro r hr; simp at hr
  | cons x t ih =>
    intro r hr
    rw [List.findIdx_cons] at hr
    by_cases hx : cutoff < x.time
    · rw [decide_eq_true hx] at hr
      simp at hr
    · rw [decide_eq_false hx] at hr
      simp only [cond_false, List.take_succ_cons] at hr
      rcases List.mem_cons.mp hr with h | h
      · subst h; exact hx
      · exact ih r h

/-- C5: the max-age(D) policy is a single boundary scan that keeps exactly the
suffix starting at the first record whose timestamp is strictly after
now − D (now being the clock reading at cleanup time); under time-ordered
insertion every retained record is then within D of now and every removed
record is not. -/
theorem maxAge_boundary_scan (D now : Int) (records : List Record)
    (hsorted : List.Pairwise (fun a b => a.time ≤ b.time) records) :
    maxAgeCleanup D now records
        = records.drop
            (records.findIdx (fun r => decide (now - D < r.time))) ∧
    (∀ r ∈ maxAgeCleanup D now records, now - r.time < D) ∧
    (∀ r ∈ records.take
          (records.findIdx (fun r => decide (now - D < r.time))),
      ¬ now - r.time < D) := by
  have hdropEq : maxAgeCleanup D now records
      = records.drop
          (records.findIdx (fun r => decide (now - D < r.time))) := by
    simp only [maxAgeCleanup]
    split_ifs with h0 h1 h2
    · rw [List.eq_nil_of_length_eq_zero h0]
      simp
    · have heq : records.findIdx (fun r => decide (now - D < r.time))
          = records.length :=
        le_antisymm (List.findIdx_le_length _) h1
      rw [List.take_zero, heq, List.drop_length]
    · rw [h2, List.drop_zero]
    · rfl
  refine ⟨hdropEq, ?_, ?_⟩
  · intro r hr
    rw [hdropEq] at hr
    have := sorted_drop_findIdx_time (now - D) records hsorted r hr
    omega
  · intro r hr
    have := take_findIdx_time (now - D) records r hr
    omega

theorem maxAge_boundary_scan_witness :
    maxAgeCleanup 5 10 [timeRec 0, timeRec 10] = [timeRec 10] ∧
    10 - (timeRec 10).time < 5 := by
  have hsorted : List.Pairwise (fun a b => a.time ≤ b.time)
      [timeRec 0, timeRec 10] := by
    simp [List.pairwise_cons, timeRec]
  have h := maxAge_boundary_scan 5 10 [timeRec 0, timeRec 10] hsorted
  refine ⟨h.1.trans ?_, h.2.1 (timeRec 10) ?_⟩
  · rfl
  · show timeRec 10 ∈ maxAgeCleanup 5 10 [timeRec 0, timeRec 10]
    rw [h.1]
    exact List.mem_cons_self _ _

end LogLater
